import Mathlib

/-!
Verification of the view-registry and comment-thread models of this repository:
`src/vs/workbench/browser/parts/views/views.ts` (ViewDescriptorCollection,
ContributableViewsModel, PersistentContributableViewsModel) and the comments
model (CommentNode / ResourceWithCommentThreads / CommentsModel).

The TypeScript is embedded shallowly: JS `Map` becomes an association list
updated in place (`mapSet` keeps the position of an existing key, like
`Map.set`), JS numbers that the code uses as integral orders/sizes become
`Int`, `undefined`/missing becomes `Option`, thrown errors become `Except`,
and every event emission is returned as an explicit list of events.
-/

/-- Per-id view state, `IViewState` of views.ts (visible/collapsed/order?/size?). -/
structure ViewState where
  visible : Bool
  collapsed : Bool
  order : Option Int := none
  size : Option Int := none
deriving DecidableEq, Repr

/-- The default state reconcile assigns to a descriptor first seen
(views.ts lines 356-359: `{ visible: true, collapsed: false }`). -/
def defaultViewState : ViewState := { visible := true, collapsed := false }

/-- `IViewDescriptor`: only the fields the verified code reads. The `when`
context-key predicate is kept opaque as the list of keys it references
(the only operation views.ts performs on it besides evaluation). -/
structure ViewDescriptor where
  id : String
  canToggleVisibility : Bool := false
  order : Option Int := none
  whenKeys : Option (List String) := none
deriving DecidableEq, Repr

/-- The `viewStates` map, JS `Map<string, IViewState>` in insertion order. -/
abbrev StateMap := List (String × ViewState)

/-- `Map.get`: the value at the key, `none` when absent. -/
def mapGet (m : StateMap) (k : String) : Option ViewState :=
  (m.find? (fun e => e.1 = k)).map (fun e => e.2)

/-- `Map.set`: replace in place when the key exists, else append. -/
def mapSet (m : StateMap) (k : String) (v : ViewState) : StateMap :=
  if m.any (fun e => e.1 = k) then
    m.map (fun e => if e.1 = k then (k, v) else e)
  else
    m ++ [(k, v)]

/-- `Map.has`. -/
def mapHas (m : StateMap) (k : String) : Bool :=
  m.any (fun e => e.1 = k)

/-- The effective order of a descriptor (views.ts lines 326-332):
`viewState.order` when it is a number, else the `order` of the descriptor,
else `+∞` — represented as `none`. -/
def effectiveOrder (st : StateMap) (a : ViewDescriptor) : Option Int :=
  match (mapGet st a.id).bind ViewState.order with
  | some o => some o
  | none => a.order

/-- Sign-faithful rendering of the JS subtraction `orderA - orderB` on
values in `ℤ ∪ \x7b+∞\x7d` (`none` is `+∞`); only ever used when the two
arguments differ, so the `none, none` case is unreachable. -/
def orderDiffSign : Option Int → Option Int → Int
  | some x, some y => x - y
  | some _, none => -1
  | none, some _ => 1
  | none, none => 0

/-- `ContributableViewsModel.compareViewDescriptors` (views.ts 322-343). -/
def compareViewDescriptors (st : StateMap) (a b : ViewDescriptor) : Int :=
  let orderA := effectiveOrder st a
  let orderB := effectiveOrder st b
  if orderA ≠ orderB then orderDiffSign orderA orderB
  else if a.id = b.id then 0
  else if a.id < b.id then -1 else 1

/-- Insert into a list sorted ascending w.r.t. an `Int` comparator. -/
def orderedInsertCmp {α : Type} (cmp : α → α → Int) (a : α) : List α → List α
  | [] => [a]
  | b :: l => if cmp a b ≤ 0 then a :: b :: l else b :: orderedInsertCmp cmp a l

/-- `Array.prototype.sort(cmp)` modelled as a deterministic (stable
insertion) sort on the comparator; the source comparator is a strict
total order on the ids in play, so any correct sort yields this result. -/
def insertionSortCmp {α : Type} (cmp : α → α → Int) : List α → List α
  | [] => []
  | a :: l => orderedInsertCmp cmp a (insertionSortCmp cmp l)

/-- Result of `ContributableViewsModel.find` (views.ts 305-320). -/
structure FindResult where
  index : Nat
  visibleIndex : Nat
  viewDescriptor : ViewDescriptor
  state : ViewState
deriving DecidableEq, Repr

/-- The scan loop of `find`: walks the descriptor list counting visible
predecessors; the state lookup is total in the source only under the
states-present invariant (claim C10), so the `getD` default is never
observed there. -/
def findAux (st : StateMap) (id : String) :
    List ViewDescriptor → Nat → Nat → Option FindResult
  | [], _, _ => none
  | vd :: rest, i, visibleIndex =>
    let state := (mapGet st vd.id).getD defaultViewState
    if vd.id = id then some ⟨i, visibleIndex, vd, state⟩
    else findAux st id rest (i + 1) (if state.visible then visibleIndex + 1 else visibleIndex)

/-- State of a `ContributableViewsModel`: the stored ordered descriptor
list and the `viewStates` map. -/
structure ModelState where
  viewDescriptors : List ViewDescriptor
  viewStates : StateMap
deriving DecidableEq, Repr

/-- `ContributableViewsModel.find(id)` (throws in the source when the id
is absent from the stored list; modelled as `none`). -/
def findOp (m : ModelState) (id : String) : Option FindResult :=
  findAux m.viewStates id m.viewDescriptors 0 0

/-- `visibleViewDescriptors` getter (views.ts 200-202). -/
def visibleViewDescriptors (m : ModelState) : List ViewDescriptor :=
  m.viewDescriptors.filter (fun v => ((mapGet m.viewStates v.id).getD defaultViewState).visible)

/-- The events `ContributableViewsModel` emits (`onDidAdd`, `onDidRemove`,
`onDidMove`), with the payload fields the source sends. -/
inductive ViewEvent where
  | add (index : Nat) (viewDescriptor : ViewDescriptor) (size : Option Int) (collapsed : Bool)
  | remove (index : Nat) (viewDescriptor : ViewDescriptor)
  | move (fromIndex : Nat) (fromViewDescriptor : ViewDescriptor)
      (toIndex : Nat) (toViewDescriptor : ViewDescriptor)
deriving DecidableEq, Repr

/-- `ContributableViewsModel.setVisible` (views.ts 235-253). -/
def setVisible (m : ModelState) (id : String) (visible : Bool) :
    Except String (ModelState × List ViewEvent) :=
  match findOp m id with
  | none => .error (s!"view descriptor {id} not found")
  | some r =>
    if !r.viewDescriptor.canToggleVisibility then
      .error ("Can" ++ "\x27" ++ "t toggle this view" ++ "\x27" ++ "s visibility")
    else if r.state.visible = visible then .ok (m, [])
    else
      let newState := { r.state with visible := visible }
      let m' := { m with viewStates := mapSet m.viewStates r.viewDescriptor.id newState }
      if visible then
        .ok (m', [.add r.visibleIndex r.viewDescriptor newState.size newState.collapsed])
      else
        .ok (m', [.remove r.visibleIndex r.viewDescriptor])

/-- `setCollapsed` (views.ts 265-268): pure state mutation through `find`. -/
def setCollapsed (m : ModelState) (id : String) (collapsed : Bool) : Option ModelState :=
  (findOp m id).map fun r =>
    let s' : ViewState := { r.state with collapsed := collapsed }
    { m with viewStates := mapSet m.viewStates r.viewDescriptor.id s' }

/-- `setSize` (views.ts 280-283): pure state mutation through `find`. -/
def setSize (m : ModelState) (id : String) (size : Int) : Option ModelState :=
  (findOp m id).map fun r =>
    let s' : ViewState := { r.state with size := some size }
    { m with viewStates := mapSet m.viewStates r.viewDescriptor.id s' }

/-- Modelled from the spec: `move` of `vs/base/common/arrays` (not under
src/) — `array.splice(to, 0, array.splice(from, 1)[0])`: remove the
element at `from`, then insert it at position `to` of the shortened list. -/
def arrayMove {α : Type} (l : List α) (fromIndex toIndex : Nat) : List α :=
  match l[fromIndex]? with
  | none => l
  | some x => (l.eraseIdx fromIndex).insertIdx toIndex x

/-- The map-entry update `state.order = index` performed on an existing
entry; a missing entry would crash the source, so it is left untouched. -/
def setOrderAt (st : StateMap) (k : String) (i : Nat) : StateMap :=
  match mapGet st k with
  | none => st
  | some s => mapSet st k { s with order := some (i : Int) }

/-- The renumbering loop of `move` (views.ts 294-297): assign to every
state of each descriptor the `order` equal to its new raw index. -/
def renumberStates (st : StateMap) : List ViewDescriptor → Nat → StateMap
  | [], _ => st
  | vd :: rest, i => renumberStates (setOrderAt st vd.id i) rest (i + 1)

/-- `ContributableViewsModel.move` (views.ts 285-303). The source does not
guard against unknown ids (`firstIndex` returning `-1` leads to undefined
array reads); that regime is modelled as `none`. -/
def moveOp (m : ModelState) (fromId toId : String) : Option (ModelState × List ViewEvent) :=
  match m.viewDescriptors.findIdx? (fun v => v.id = fromId),
      m.viewDescriptors.findIdx? (fun v => v.id = toId) with
  | some fromIndex, some toIndex =>
    match m.viewDescriptors[fromIndex]?, m.viewDescriptors[toIndex]? with
    | some fromViewDescriptor, some toViewDescriptor =>
      let vds' := arrayMove m.viewDescriptors fromIndex toIndex
      let st' := renumberStates m.viewStates vds' 0
      some ({ viewDescriptors := vds', viewStates := st' },
        [.move fromIndex fromViewDescriptor toIndex toViewDescriptor])
    | _, _ => none
  | _, _ => none

/-- A splice of the sorted diff: `ISplice` of `vs/base/common/arrays`. -/
structure Splice where
  start : Nat
  deleteCount : Nat
  toInsert : List ViewDescriptor
deriving DecidableEq, Repr

/-- `pushSplice` of `sortedDiff`: drop empty splices, coalesce a splice
adjacent to the latest one. The accumulator is kept reversed
(head = latest splice). -/
def pushSpliceR (res : List Splice) (start deleteCount : Nat) (toInsert : List ViewDescriptor) :
    List Splice :=
  if deleteCount = 0 ∧ toInsert.isEmpty then res
  else
    match res with
    | latest :: rest =>
      if latest.start + latest.deleteCount = start then
        let merged : Splice :=
          ⟨latest.start, latest.deleteCount + deleteCount, latest.toInsert ++ toInsert⟩
        merged :: rest
      else
        ⟨start, deleteCount, toInsert⟩ :: latest :: rest
    | [] => [⟨start, deleteCount, toInsert⟩]

/-- Inner loop of the sorted-diff merge walk: while the current `before`
element compares greater than the head of `after`, that head is an
insertion (`pushSplice(beforeIdx, 0, [afterElement])`). Returns the
accumulated splices and the rest of `after`. -/
def consumeInserts (cmp : ViewDescriptor → ViewDescriptor → Int) (b : ViewDescriptor) :
    List ViewDescriptor → Nat → List Splice → List Splice × List ViewDescriptor
  | [], _, res => (res, [])
  | a :: rest, beforeIdx, res =>
    if cmp b a > 0 then consumeInserts cmp b rest beforeIdx (pushSpliceR res beforeIdx 0 [a])
    else (res, a :: rest)

/-- Modelled from the spec: `sortedDiff` of `vs/base/common/arrays` (not
under src/) — the LCS-style splice diff of two lists sorted by the same
comparator (spec §4.3 step 3): walk both lists, equal heads advance both,
a smaller `before` head is a deletion, a greater one an insertion; a
trailing run of either list is one bulk splice. -/
def sortedDiffWalk (cmp : ViewDescriptor → ViewDescriptor → Int) :
    List ViewDescriptor → List ViewDescriptor → Nat → List Splice → List Splice
  | [], after, beforeIdx, res => pushSpliceR res beforeIdx 0 after
  | b :: bs, after, beforeIdx, res =>
    match consumeInserts cmp b after beforeIdx res with
    | (res', []) => pushSpliceR res' beforeIdx (b :: bs).length []
    | (res', a :: rest) =>
      if cmp b a = 0 then sortedDiffWalk cmp bs rest (beforeIdx + 1) res'
      else sortedDiffWalk cmp bs (a :: rest) (beforeIdx + 1) (pushSpliceR res' beforeIdx 1 [])

/-- `sortedDiff(before, after, compare)` — splices in ascending order. -/
def sortedDiffSplices (cmp : ViewDescriptor → ViewDescriptor → Int)
    (before after : List ViewDescriptor) : List Splice :=
  (sortedDiffWalk cmp before after 0 []).reverse

/-- The events one splice emits during reconcile (views.ts 369-390):
`startIndex` is the visible-index of the descriptor at `splice.start`
(or the raw length of the stored list when the splice starts past its
end); each deleted descriptor whose state is visible fires a remove at
that constant `startIndex`; each inserted visible descriptor fires an
add at `startIndex++`. -/
def spliceEvents (st : StateMap) (old : List ViewDescriptor) (sp : Splice) : List ViewEvent :=
  let startIndex : Nat :=
    match old[sp.start]? with
    | some svd =>
      match findAux st svd.id old 0 0 with
      | some r => r.visibleIndex
      | none => 0
    | none => old.length
  let removes : List ViewEvent :=
    (List.range sp.deleteCount).filterMap fun i =>
      match old[sp.start + i]? with
      | some vd =>
        match findAux st vd.id old 0 0 with
        | some r => if r.state.visible then some (.remove startIndex vd) else none
        | none => none
      | none => none
  let adds : List ViewEvent :=
    (sp.toInsert.foldl (fun (acc : List ViewEvent × Nat) vd =>
      match mapGet st vd.id with
      | some s =>
        if s.visible then (acc.1 ++ [.add acc.2 vd s.size s.collapsed], acc.2 + 1) else acc
      | none => acc) ([], startIndex)).1
  removes ++ adds

/-- The default-state assignment loop of reconcile (views.ts 354-361). -/
def addDefaultStates (st : StateMap) (vds : List ViewDescriptor) : StateMap :=
  vds.foldl (fun st vd => if (mapGet st vd.id).isSome then st else mapSet st vd.id defaultViewState) st

/-- `ContributableViewsModel.onDidChangeViewDescriptors` (views.ts
345-393): sort the incoming active descriptors with the comparator,
assign default states to unseen ids, diff old vs new order, emit the
splice events in reverse splice order, install the new list. (The `ids`
set built at lines 346-350 of the source is never read and is omitted.) -/
def onDidChangeViewDescriptorsOp (m : ModelState) (incoming : List ViewDescriptor) :
    ModelState × List ViewEvent :=
  let sorted := insertionSortCmp (compareViewDescriptors m.viewStates) incoming
  let st' := addDefaultStates m.viewStates sorted
  let splices := (sortedDiffSplices (compareViewDescriptors st') m.viewDescriptors sorted).reverse
  let events := splices.foldl (fun acc sp => acc ++ spliceEvents st' m.viewDescriptors sp) []
  ({ viewDescriptors := sorted, viewStates := st' }, events)

/-- `IViewItem` of views.ts: a descriptor paired with its computed
`active` flag. -/
structure IViewItem where
  viewDescriptor : ViewDescriptor
  active : Bool
deriving DecidableEq, Repr

/-- `CounterSet` (views.ts 28-58) as a multiplicity function: `add`
increments, `delete` decrements (a no-op at zero, matching the early
return), `has` is positivity. -/
abbrev Counter := String → Nat

/-- `CounterSet.add`. -/
def counterAdd (c : Counter) (k : String) : Counter :=
  fun x => if x = k then c x + 1 else c x

/-- `CounterSet.delete`. -/
def counterDelete (c : Counter) (k : String) : Counter :=
  fun x => if x = k then c x - 1 else c x

/-- The evolving state of one `onViewsDeregistered` pass (views.ts
123-150). `removed` records the items spliced out and `deletedKeys` the
arguments of the `CounterSet.delete` calls, in order — explicit traces
of the `splice` and `delete` effects of the source. -/
structure DeregState where
  contextKeys : Counter
  items : List IViewItem
  fired : Bool
  removed : List IViewItem
  deletedKeys : List String

/-- One iteration of the `onViewsDeregistered` loop: find the first item
with the id of the deregistered descriptor (skip when absent), splice it out,
delete the `when` keys of that descriptor from the counter set, and mark the
changed signal when the removed item was active. -/
def onViewsDeregisteredStep (s : DeregState) (vd : ViewDescriptor) : DeregState :=
  match s.items.findIdx? (fun i => i.viewDescriptor.id = vd.id) with
  | none => s
  | some index =>
    match s.items[index]? with
    | none => s
    | some item =>
      let keys := vd.whenKeys.getD []
      { contextKeys := keys.foldl counterDelete s.contextKeys
        items := s.items.eraseIdx index
        fired := s.fired || item.active
        removed := s.removed ++ [item]
        deletedKeys := s.deletedKeys ++ keys }

/-- `ViewDescriptorCollection.onViewsDeregistered` over a whole batch;
`fired` says whether the single coalesced `_onDidChange.fire()` at the
end of the loop happens. -/
def onViewsDeregistered (contextKeys : Counter) (items : List IViewItem)
    (vds : List ViewDescriptor) : DeregState :=
  vds.foldl onViewsDeregisteredStep ⟨contextKeys, items, false, [], []⟩

/-- `ISerializedViewState` of views.ts (396-399). -/
structure SerializedViewState where
  id : String
  state : ViewState
deriving DecidableEq, Repr

/-- `StorageScope` of the storage service: workspace- or global-scoped. -/
inductive ViewStorageScope where
  | workspace
  | globalScope
deriving DecidableEq, Repr

/-- `WorkbenchState` of the workspace service (only the EMPTY test matters). -/
inductive WorkbenchKind where
  | EMPTY
  | FOLDER
  | WORKSPACE
deriving DecidableEq, Repr

/-- Scope selection of PersistentContributableViewsModel (views.ts 414,
435): workspace scope when a workspace is open, else global. -/
def scopeFor (w : WorkbenchKind) : ViewStorageScope :=
  if w ≠ WorkbenchKind.EMPTY then .workspace else .globalScope

/-- The scoped key-value store, holding per scope and key the parsed
serialized array (`JSON.parse ∘ JSON.stringify` is modelled as the
identity on the array of `ISerializedViewState`). -/
abbrev ViewStorage := ViewStorageScope → String → Option (List SerializedViewState)

/-- `storageService.get(key, scope, default)` followed by parsing. -/
def storageGet (s : ViewStorage) (key : String) (scope : ViewStorageScope)
    (dflt : List SerializedViewState) : List SerializedViewState :=
  (s scope key).getD dflt

/-- `storageService.store(key, raw, scope)`. -/
def storageStore (s : ViewStorage) (key : String) (value : List SerializedViewState)
    (scope : ViewStorageScope) : ViewStorage :=
  fun sc k => if sc = scope ∧ k = key then some value else s sc k

/-- The constructor loop of PersistentContributableViewsModel (views.ts
415-421): read the serialized array at the scoped key and `set` every
entry into a fresh map. -/
def loadViewStates (storage : ViewStorage) (key : String) (w : WorkbenchKind) : StateMap :=
  (storageGet storage key (scopeFor w) []).foldl (fun m e => mapSet m e.id e.state) []

/-- `PersistentContributableViewsModel.saveViewsStates` (views.ts
430-437): serialize the whole map (`forEach` walks insertion order) and
store it at the same scoped key. -/
def saveViewsStates (storage : ViewStorage) (key : String) (w : WorkbenchKind)
    (st : StateMap) : ViewStorage :=
  storageStore storage key (st.map (fun e => ⟨e.1, e.2⟩)) (scopeFor w)

/-- A single review comment; its payload is opaque to the model. -/
structure ReviewComment where
  body : String
deriving DecidableEq, Repr

/-- `IRange` of the editor core. -/
structure CommentRange where
  startLineNumber : Int
  startColumn : Int
  endLineNumber : Int
  endColumn : Int
deriving DecidableEq, Repr

/-- `CommentThread`: resource URIs are modelled as their identity
strings (`URI.parse`/`toString` is the identity in this embedding). -/
structure ReviewThread where
  threadId : String
  resource : String
  range : CommentRange
  comments : List ReviewComment
deriving DecidableEq, Repr

/-- `CommentNode` of the comments model: a comment with its flat list of
replies. -/
inductive CommentNode where
  | mk (threadId : String) (resource : String) (comment : ReviewComment)
      (range : CommentRange) (replies : List CommentNode)
deriving Repr

/-- The `threadId` field of a `CommentNode`. -/
def CommentNode.threadId : CommentNode → String
  | .mk t _ _ _ _ => t

/-- The `comment` field of a `CommentNode`. -/
def CommentNode.comment : CommentNode → ReviewComment
  | .mk _ _ c _ _ => c

/-- The `replies` field of a `CommentNode`. -/
def CommentNode.replies : CommentNode → List CommentNode
  | .mk _ _ _ _ rs => rs

/-- The assignment `commentNodes[0].replies = commentNodes.slice(1)`. -/
def CommentNode.withReplies : CommentNode → List CommentNode → CommentNode
  | .mk t res c r _, rs => .mk t res c r rs

/-- `ResourceWithCommentThreads.createCommentNode` (comments model,
lines 242-251): one leaf node per comment, the first node receives all
the others as replies when there are at least two; a thread with no
comments has no node (`commentNodes[0]` is undefined in the source),
modelled as `none`. -/
def createCommentNode (resource : String) (t : ReviewThread) : Option CommentNode :=
  let commentNodes := t.comments.map (fun c => CommentNode.mk t.threadId resource c t.range [])
  match commentNodes with
  | [] => none
  | n :: rest => some (if 1 < rest.length + 1 then n.withReplies rest else n)

/-- `ResourceWithCommentThreads`: `id` is the resource identity string. -/
structure ResourceWithCommentThreads where
  id : String
  resource : String
  commentThreads : List CommentNode
deriving Repr

/-- The `ResourceWithCommentThreads` constructor (lines 236-240); the
per-thread conversion is total only on nonempty threads, and the
`filterMap` agrees with the `map` of the source on them. -/
def mkResourceWithCommentThreads (resource : String) (threads : List ReviewThread) :
    ResourceWithCommentThreads :=
  ⟨resource, resource, threads.filterMap (createCommentNode resource)⟩

/-- `CommentsModel._compareURIs` (lines 317-327). -/
def compareURIs (a b : ReviewThread) : Int :=
  if a.resource < b.resource then -1
  else if a.resource > b.resource then 1
  else 0

/-- Grouping loop of `groupBy` of `vs/base/common/arrays` after sorting:
successive elements comparing equal to the head of the current group
join it, otherwise a new group starts. -/
def gatherGroups (cmp : ReviewThread → ReviewThread → Int) (g0 : ReviewThread)
    (acc : List ReviewThread) : List ReviewThread → List (List ReviewThread)
  | [] => [acc.reverse]
  | x :: xs =>
    if cmp g0 x = 0 then gatherGroups cmp g0 (x :: acc) xs
    else acc.reverse :: gatherGroups cmp x [x] xs

/-- Modelled from the spec: `groupBy` of `vs/base/common/arrays` (not
under src/) — sort by the comparator, then chunk runs of
comparator-equal elements (spec §4.5 "sort/group the flat thread list by
resource identity string"). -/
def groupByCmp (cmp : ReviewThread → ReviewThread → Int) (l : List ReviewThread) :
    List (List ReviewThread) :=
  match insertionSortCmp cmp l with
  | [] => []
  | x :: xs => gatherGroups cmp x [x] xs

/-- The entries `addCommentThreads` builds: one
`ResourceWithCommentThreads` per group of added threads. The source
routes the groups through a `Map` keyed by `group[0].resource` and then
pushes each entry; groups produced by `groupBy` have pairwise distinct
resources, so the map neither drops nor reorders them. -/
def addedResourceEntries (threads : List ReviewThread) : List ResourceWithCommentThreads :=
  (groupByCmp compareURIs threads).filterMap fun g =>
    match g with
    | [] => none
    | t :: _ => some (mkResourceWithCommentThreads t.resource g)

/-- `CommentsModel` state. -/
structure CommentsModel where
  resourceCommentThreads : List ResourceWithCommentThreads
deriving Repr

/-- `CommentsModel.addCommentThreads` (lines 306-315): append one new
resource entry per group — existing entries are never merged into. -/
def addCommentThreads (m : CommentsModel) (threads : List ReviewThread) : CommentsModel :=
  ⟨m.resourceCommentThreads ++ addedResourceEntries threads⟩

/-- `CommentsModel.setCommentThreads` (lines 260-263): the previous
entries are discarded wholesale. -/
def setCommentThreads (_m : CommentsModel) (threads : List ReviewThread) : CommentsModel :=
  addCommentThreads ⟨[]⟩ threads

/-- `CommentThreadChangedEvent`. -/
structure ThreadChangedEvent where
  removed : List ReviewThread
  changed : List ReviewThread
  added : List ReviewThread
deriving Repr

/-- The removed-phase body (lines 266-279). The source performs
unguarded lookups (`firstIndex` may return `-1`); the missing case is a
precondition violation per spec §7 and is modelled as a skip. -/
def removeThread (m : CommentsModel) (t : ReviewThread) : CommentsModel :=
  match m.resourceCommentThreads.findIdx? (fun rd => rd.id = t.resource) with
  | none => m
  | some ri =>
    match m.resourceCommentThreads[ri]? with
    | none => m
    | some rd =>
      match rd.commentThreads.findIdx? (fun ct => ct.threadId = t.threadId) with
      | none => m
      | some ci =>
        let rd' : ResourceWithCommentThreads :=
          { rd with commentThreads := rd.commentThreads.eraseIdx ci }
        if rd'.commentThreads.length = 0 then
          ⟨m.resourceCommentThreads.eraseIdx ri⟩
        else
          ⟨m.resourceCommentThreads.set ri rd'⟩

/-- The changed-phase body (lines 281-289), same precondition caveat;
the replacement node is rebuilt from the updated thread. -/
def changeThread (m : CommentsModel) (t : ReviewThread) : CommentsModel :=
  match m.resourceCommentThreads.findIdx? (fun rd => rd.id = t.resource) with
  | none => m
  | some ri =>
    match m.resourceCommentThreads[ri]? with
    | none => m
    | some rd =>
      match rd.commentThreads.findIdx? (fun ct => ct.threadId = t.threadId) with
      | none => m
      | some ci =>
        match createCommentNode rd.id t with
        | none => m
        | some node =>
          ⟨m.resourceCommentThreads.set ri { rd with commentThreads := rd.commentThreads.set ci node }⟩

/-- `CommentsModel.updateCommentThreads` (lines 265-292): removed, then
changed, then added. -/
def updateCommentThreads (m : CommentsModel) (e : ThreadChangedEvent) : CommentsModel :=
  let m1 := e.removed.foldl removeThread m
  let m2 := e.changed.foldl changeThread m1
  addCommentThreads m2 e.added

/-- `CommentsModel.hasCommentThreads` (lines 294-296). -/
def hasCommentThreads (m : CommentsModel) : Bool :=
  m.resourceCommentThreads.length ≠ 0

/-! ### Map lemmas -/

theorem mapSet_cons (e : String × ViewState) (rest : StateMap) (k : String) (v : ViewState) :
    mapSet (e :: rest) k v =
      if e.1 = k then (k, v) :: rest.map (fun x => if x.1 = k then (k, v) else x)
      else e :: mapSet rest k v := by
  by_cases he : e.1 = k
  · simp [mapSet, he]
  · by_cases hr : rest.any (fun x => x.1 = k) = true
    · simp [mapSet, he, hr]
    · have hr' : rest.any (fun x => x.1 = k) = false := by
        cases hh : rest.any (fun x => x.1 = k) with
        | true => exact absurd hh hr
        | false => rfl
      simp [mapSet, he, hr']

theorem find?_map_replace (rest : StateMap) (k k' : String) (v : ViewState) (h : k' ≠ k) :
    (rest.map (fun x => if x.1 = k then (k, v) else x)).find? (fun x => x.1 = k') =
      rest.find? (fun x => x.1 = k') := by
  induction rest with
  | nil => rfl
  | cons x xs ih =>
    by_cases hx : x.1 = k
    · have h1 : ¬ ((k, v).1 = k') := fun hc => h hc.symm
      have h2 : ¬ (x.1 = k') := by rw [hx]; exact fun hc => h hc.symm
      simp only [List.map_cons, if_pos hx]
      rw [List.find?_cons_of_neg _ (by simpa using h1), List.find?_cons_of_neg _ (by simpa using h2)]
      exact ih
    · simp only [List.map_cons, if_neg hx]
      by_cases hx' : x.1 = k'
      · rw [List.find?_cons_of_pos _ (by simpa using hx'), List.find?_cons_of_pos _ (by simpa using hx')]
      · rw [List.find?_cons_of_neg _ (by simpa using hx'), List.find?_cons_of_neg _ (by simpa using hx')]
        exact ih

theorem mapGet_mapSet (m : StateMap) (k k' : String) (v : ViewState) :
    mapGet (mapSet m k v) k' = if k' = k then some v else mapGet m k' := by
  induction m with
  | nil =>
    by_cases hk : k' = k
    · simp [mapSet, mapGet, hk]
    · have : ¬ ((k, v).1 = k') := fun hc => hk hc.symm
      simp only [mapSet, List.any_nil, Bool.false_eq_true, if_false, List.nil_append, mapGet, if_neg hk]
      rw [List.find?_cons_of_neg _ (by simpa using this)]
  | cons e rest ih =>
    rw [mapSet_cons]
    by_cases he : e.1 = k
    · simp only [if_pos he]
      by_cases hk : k' = k
      · subst hk
        simp only [if_pos rfl, mapGet]
        rw [List.find?_cons_of_pos _ (by simp)]
        rfl
      · simp only [if_neg hk, mapGet]
        have hkv : ¬ ((k, v).1 = k') := fun hc => hk hc.symm
        have he2 : ¬ (e.1 = k') := by rw [he]; exact fun hc => hk hc.symm
        rw [List.find?_cons_of_neg _ (by simpa using hkv)]
        rw [find?_map_replace rest k k' v hk]
        rw [List.find?_cons_of_neg _ (by simpa using he2)]
    · simp only [if_neg he]
      by_cases hk : k' = k
      · subst hk
        simp only [if_pos rfl, mapGet]
        rw [List.find?_cons_of_neg _ (by simpa using he)]
        have := ih
        simp only [if_pos rfl, mapGet] at this
        exact this
      · simp only [if_neg hk, mapGet]
        by_cases he' : e.1 = k'
        · rw [List.find?_cons_of_pos _ (by simpa using he'), List.find?_cons_of_pos _ (by simpa using he')]
        · rw [List.find?_cons_of_neg _ (by simpa using he'), List.find?_cons_of_neg _ (by simpa using he')]
          have := ih
          simp only [if_neg hk, mapGet] at this
          exact this

theorem mapGet_mapSet_self (m : StateMap) (k : String) (v : ViewState) :
    mapGet (mapSet m k v) k = some v := by
  rw [mapGet_mapSet]
  simp

theorem mapGet_mapSet_ne (m : StateMap) (k k' : String) (v : ViewState) (h : k' ≠ k) :
    mapGet (mapSet m k v) k' = mapGet m k' := by
  rw [mapGet_mapSet]
  simp [h]

theorem mapGet_isSome_mapSet (m : StateMap) (k k' : String) (v : ViewState)
    (h : (mapGet m k').isSome) : (mapGet (mapSet m k v) k').isSome := by
  by_cases hk : k' = k
  · subst hk
    rw [mapGet_mapSet_self]
    rfl
  · rw [mapGet_mapSet_ne m k k' v hk]
    exact h

/-! ### Comparator lemmas -/

theorem orderDiffSign_antisymm (x y : Option Int) : orderDiffSign x y = -(orderDiffSign y x) := by
  cases x <;> cases y <;> simp [orderDiffSign]

theorem compareViewDescriptors_self (st : StateMap) (a : ViewDescriptor) :
    compareViewDescriptors st a a = 0 := by
  simp [compareViewDescriptors]

theorem compareViewDescriptors_antisymm (st : StateMap) (a b : ViewDescriptor) :
    compareViewDescriptors st a b = -(compareViewDescriptors st b a) := by
  simp only [compareViewDescriptors]
  by_cases h : effectiveOrder st a = effectiveOrder st b
  · rw [if_neg (not_not_intro h), if_neg (not_not_intro h.symm)]
    by_cases h2 : a.id = b.id
    · rw [if_pos h2, if_pos h2.symm]
      decide
    · rw [if_neg h2, if_neg (Ne.symm h2)]
      rcases lt_or_gt_of_ne h2 with hlt | hgt
      · rw [if_pos hlt, if_neg (lt_asymm hlt)]
      · rw [if_neg (lt_asymm hgt), if_pos hgt]
        decide
  · rw [if_pos h, if_pos (Ne.symm h)]
    exact orderDiffSign_antisymm _ _

theorem compareViewDescriptors_eq_zero (st : StateMap) (a b : ViewDescriptor)
    (h : compareViewDescriptors st a b = 0) :
    effectiveOrder st a = effectiveOrder st b ∧ a.id = b.id := by
  by_cases he : effectiveOrder st a = effectiveOrder st b
  · refine ⟨he, ?_⟩
    by_cases h2 : a.id = b.id
    · exact h2
    · exfalso
      simp only [compareViewDescriptors, if_neg (not_not_intro he), if_neg h2] at h
      by_cases h3 : a.id < b.id
      · rw [if_pos h3] at h
        exact absurd h (by decide)
      · rw [if_neg h3] at h
        exact absurd h (by decide)
  · exfalso
    simp only [compareViewDescriptors, if_pos he] at h
    rcases hx : effectiveOrder st a with _ | x <;> rcases hy : effectiveOrder st b with _ | y <;>
      rw [hx, hy] at h he
    · exact he rfl
    · simp [orderDiffSign] at h
    · simp [orderDiffSign] at h
    · simp only [orderDiffSign] at h
      have : x = y := by omega
      exact he (by rw [this])

/-- The strict part of the comparator as a lexicographic relation on
(effective order, id), with `none` as `+∞`. -/
def effOrderLt : Option Int → Option Int → Prop
  | some x, some y => x < y
  | some _, none => True
  | none, _ => False

theorem effOrderLt_irrefl (x : Option Int) : ¬ effOrderLt x x := by
  cases x <;> simp [effOrderLt]

theorem effOrderLt_trans (x y z : Option Int) (h1 : effOrderLt x y) (h2 : effOrderLt y z) :
    effOrderLt x z := by
  cases x <;> cases y <;> cases z <;> simp_all [effOrderLt]
  omega

theorem compareViewDescriptors_neg_iff (st : StateMap) (a b : ViewDescriptor) :
    compareViewDescriptors st a b < 0 ↔
      effOrderLt (effectiveOrder st a) (effectiveOrder st b) ∨
        (effectiveOrder st a = effectiveOrder st b ∧ a.id < b.id) := by
  by_cases he : effectiveOrder st a = effectiveOrder st b
  · simp only [compareViewDescriptors, if_neg (not_not_intro he)]
    rw [he]
    constructor
    · intro h
      by_cases h2 : a.id = b.id
      · rw [if_pos h2] at h
        exact absurd h (by decide)
      · rw [if_neg h2] at h
        by_cases h3 : a.id < b.id
        · exact Or.inr ⟨rfl, h3⟩
        · rw [if_neg h3] at h
          exact absurd h (by decide)
    · rintro (h | ⟨-, h3⟩)
      · exact absurd h (effOrderLt_irrefl _)
      · have h2 : ¬ a.id = b.id := ne_of_lt h3
        rw [if_neg h2, if_pos h3]
        decide
  · simp only [compareViewDescriptors, if_pos he]
    rcases hx : effectiveOrder st a with _ | x <;> rcases hy : effectiveOrder st b with _ | y <;>
      rw [hx, hy] at he
    · exact absurd rfl he
    · simp [orderDiffSign, effOrderLt]
    · simp [orderDiffSign, effOrderLt]
    · simp only [orderDiffSign, effOrderLt]
      constructor
      · intro h
        exact Or.inl (by omega)
      · rintro (h | ⟨h, -⟩)
        · omega
        · exact absurd h he

theorem compareViewDescriptors_lt_trans (st : StateMap) (a b c : ViewDescriptor)
    (h1 : compareViewDescriptors st a b < 0) (h2 : compareViewDescriptors st b c < 0) :
    compareViewDescriptors st a c < 0 := by
  rw [compareViewDescriptors_neg_iff] at h1 h2 ⊢
  rcases h1 with h1 | ⟨he1, hid1⟩
  · rcases h2 with h2 | ⟨he2, hid2⟩
    · exact Or.inl (effOrderLt_trans _ _ _ h1 h2)
    · exact Or.inl (he2 ▸ h1)
  · rcases h2 with h2 | ⟨he2, hid2⟩
    · exact Or.inl (he1 ▸ h2)
    · exact Or.inr ⟨he1.trans he2, lt_trans hid1 hid2⟩

theorem compareViewDescriptors_congr_left (st : StateMap) (a b c : ViewDescriptor)
    (he : effectiveOrder st a = effectiveOrder st b) (hid : a.id = b.id) :
    compareViewDescriptors st a c = compareViewDescriptors st b c := by
  simp only [compareViewDescriptors, he, hid]

theorem compareViewDescriptors_congr_right (st : StateMap) (a b c : ViewDescriptor)
    (he : effectiveOrder st b = effectiveOrder st c) (hid : b.id = c.id) :
    compareViewDescriptors st a b = compareViewDescriptors st a c := by
  simp only [compareViewDescriptors, he, hid]

theorem compareViewDescriptors_le_trans (st : StateMap) (a b c : ViewDescriptor)
    (h1 : compareViewDescriptors st a b ≤ 0) (h2 : compareViewDescriptors st b c ≤ 0) :
    compareViewDescriptors st a c ≤ 0 := by
  rcases lt_or_eq_of_le h1 with h1' | h1'
  · rcases lt_or_eq_of_le h2 with h2' | h2'
    · exact le_of_lt (compareViewDescriptors_lt_trans st a b c h1' h2')
    · obtain ⟨he, hid⟩ := compareViewDescriptors_eq_zero st b c h2'
      rw [← compareViewDescriptors_congr_right st a b c he hid]
      exact h1
  · obtain ⟨he, hid⟩ := compareViewDescriptors_eq_zero st a b h1'
    rw [compareViewDescriptors_congr_left st a b c he hid]
    exact h2

theorem compareViewDescriptors_total (st : StateMap) (a b : ViewDescriptor) :
    compareViewDescriptors st a b ≤ 0 ∨ compareViewDescriptors st b a ≤ 0 := by
  rcases le_or_lt (compareViewDescriptors st a b) 0 with h | h
  · exact Or.inl h
  · right
    rw [compareViewDescriptors_antisymm st b a]
    omega

/-! ### Generic sort lemmas -/

theorem mem_orderedInsertCmp {α : Type} (cmp : α → α → Int) (a x : α) (l : List α) :
    x ∈ orderedInsertCmp cmp a l ↔ x = a ∨ x ∈ l := by
  induction l with
  | nil => simp [orderedInsertCmp]
  | cons b l ih =>
    unfold orderedInsertCmp
    by_cases h : cmp a b ≤ 0
    · rw [if_pos h]
      simp [List.mem_cons]
    · rw [if_neg h]
      simp [List.mem_cons, ih]
      tauto

theorem mem_insertionSortCmp {α : Type} (cmp : α → α → Int) (x : α) (l : List α) :
    x ∈ insertionSortCmp cmp l ↔ x ∈ l := by
  induction l with
  | nil => simp [insertionSortCmp]
  | cons a l ih =>
    unfold insertionSortCmp
    rw [mem_orderedInsertCmp, ih]
    simp [List.mem_cons]

theorem orderedInsertCmp_pairwise {α : Type} (cmp : α → α → Int)
    (htrans : ∀ a b c, cmp a b ≤ 0 → cmp b c ≤ 0 → cmp a c ≤ 0)
    (htot : ∀ a b, cmp a b ≤ 0 ∨ cmp b a ≤ 0)
    (a : α) (l : List α) (hl : l.Pairwise (fun x y => cmp x y ≤ 0)) :
    (orderedInsertCmp cmp a l).Pairwise (fun x y => cmp x y ≤ 0) := by
  induction l with
  | nil => simp [orderedInsertCmp]
  | cons b l ih =>
    rw [List.pairwise_cons] at hl
    obtain ⟨hb, hl'⟩ := hl
    unfold orderedInsertCmp
    by_cases h : cmp a b ≤ 0
    · rw [if_pos h]
      refine List.Pairwise.cons ?_ (List.Pairwise.cons hb hl')
      intro x hx
      rcases List.mem_cons.mp hx with hx | hx
      · rw [hx]
        exact h
      · exact htrans a b x h (hb x hx)
    · rw [if_neg h]
      have hba : cmp b a ≤ 0 := (htot a b).resolve_left h
      refine List.Pairwise.cons ?_ (ih hl')
      intro x hx
      rcases (mem_orderedInsertCmp cmp a x l).mp hx with hx | hx
      · rw [hx]
        exact hba
      · exact hb x hx

theorem insertionSortCmp_pairwise {α : Type} (cmp : α → α → Int)
    (htrans : ∀ a b c, cmp a b ≤ 0 → cmp b c ≤ 0 → cmp a c ≤ 0)
    (htot : ∀ a b, cmp a b ≤ 0 ∨ cmp b a ≤ 0)
    (l : List α) : (insertionSortCmp cmp l).Pairwise (fun x y => cmp x y ≤ 0) := by
  induction l with
  | nil => simp [insertionSortCmp]
  | cons a l ih =>
    unfold insertionSortCmp
    exact orderedInsertCmp_pairwise cmp htrans htot a _ ih

theorem insertionSortCmp_of_pairwise {α : Type} (cmp : α → α → Int) (l : List α)
    (h : l.Pairwise (fun x y => cmp x y ≤ 0)) : insertionSortCmp cmp l = l := by
  induction l with
  | nil => rfl
  | cons a l ih =>
    rw [List.pairwise_cons] at h
    obtain ⟨ha, hl⟩ := h
    unfold insertionSortCmp
    rw [ih hl]
    cases l with
    | nil => rfl
    | cons b l' =>
      unfold orderedInsertCmp
      rw [if_pos (ha b (List.mem_cons_self b l'))]

theorem insertionSortCmp_idem {α : Type} (cmp : α → α → Int)
    (htrans : ∀ a b c, cmp a b ≤ 0 → cmp b c ≤ 0 → cmp a c ≤ 0)
    (htot : ∀ a b, cmp a b ≤ 0 ∨ cmp b a ≤ 0)
    (l : List α) : insertionSortCmp cmp (insertionSortCmp cmp l) = insertionSortCmp cmp l :=
  insertionSortCmp_of_pairwise cmp _ (insertionSortCmp_pairwise cmp htrans htot l)

/-- C2: for every pair of view descriptors with their associated view
states, `compareViewDescriptors` (ViewState.order if set, else the
order of the descriptor, else +∞, ties broken by ascending id) is a strict
total order — sign-antisymmetric, transitive, and zero only when the ids
are equal — and re-sorting an already sorted descriptor set with it
yields the identical result. -/
theorem c2_compare_strict_total_order (st : StateMap) (a b c : ViewDescriptor) :
    (compareViewDescriptors st a b = -(compareViewDescriptors st b a))
    ∧ (compareViewDescriptors st a b = 0 → a.id = b.id)
    ∧ (compareViewDescriptors st a b < 0 → compareViewDescriptors st b c < 0 →
        compareViewDescriptors st a c < 0)
    ∧ (∀ l : List ViewDescriptor,
        insertionSortCmp (compareViewDescriptors st)
            (insertionSortCmp (compareViewDescriptors st) l)
          = insertionSortCmp (compareViewDescriptors st) l) := by
  refine ⟨compareViewDescriptors_antisymm st a b,
    fun h => (compareViewDescriptors_eq_zero st a b h).2,
    compareViewDescriptors_lt_trans st a b c,
    fun l => insertionSortCmp_idem _ (compareViewDescriptors_le_trans st)
      (compareViewDescriptors_total st) l⟩

/-- Witness for C2: the transitivity conjunct applied at three concrete
descriptors with orders 1 < 2 < 3. -/
theorem c2_compare_strict_total_order_witness :
    compareViewDescriptors [] ⟨"a", false, some 1, none⟩ ⟨"c", false, some 3, none⟩ < 0 :=
  (c2_compare_strict_total_order [] ⟨"a", false, some 1, none⟩ ⟨"b", false, some 2, none⟩
    ⟨"c", false, some 3, none⟩).2.2.1 (by decide) (by decide)

theorem sortedDiffWalk_cons (cmp : ViewDescriptor → ViewDescriptor → Int)
    (b : ViewDescriptor) (bs after : List ViewDescriptor) (n : Nat) (res : List Splice) :
    sortedDiffWalk cmp (b :: bs) after n res =
      match consumeInserts cmp b after n res with
      | (res', []) => pushSpliceR res' n (b :: bs).length []
      | (res', a :: rest) =>
        if cmp b a = 0 then sortedDiffWalk cmp bs rest (n + 1) res'
        else sortedDiffWalk cmp bs (a :: rest) (n + 1) (pushSpliceR res' n 1 []) := rfl

theorem sortedDiffWalk_self (cmp : ViewDescriptor → ViewDescriptor → Int)
    (hrefl : ∀ x, cmp x x = 0) :
    ∀ (l : List ViewDescriptor) (n : Nat) (res : List Splice),
      sortedDiffWalk cmp l l n res = res := by
  intro l
  induction l with
  | nil =>
    intro n res
    simp [sortedDiffWalk, pushSpliceR]
  | cons x xs ih =>
    intro n res
    have h1 : consumeInserts cmp x (x :: xs) n res = (res, x :: xs) := by
      unfold consumeInserts
      rw [if_neg (by rw [hrefl x]; decide)]
    rw [sortedDiffWalk_cons, h1]
    simp only []
    rw [if_pos (hrefl x)]
    exact ih (n + 1) res

theorem addDefaultStates_cons (st : StateMap) (vd : ViewDescriptor) (l : List ViewDescriptor) :
    addDefaultStates st (vd :: l) =
      addDefaultStates (if (mapGet st vd.id).isSome then st
        else mapSet st vd.id defaultViewState) l := rfl

theorem mapGet_addDefaultStates (st : StateMap) (l : List ViewDescriptor) (k : String) :
    mapGet (addDefaultStates st l) k = mapGet st k ∨
      (mapGet st k = none ∧ mapGet (addDefaultStates st l) k = some defaultViewState) := by
  induction l generalizing st with
  | nil => exact Or.inl rfl
  | cons vd l ih =>
    rw [addDefaultStates_cons]
    by_cases h : (mapGet st vd.id).isSome
    · rw [if_pos h]
      exact ih st
    · rw [if_neg h]
      have hnone : mapGet st vd.id = none := by
        cases hg : mapGet st vd.id with
        | none => rfl
        | some s => rw [hg] at h; exact absurd (Option.isSome_some (a := s)) h
      rcases ih (mapSet st vd.id defaultViewState) with h1 | ⟨h1, h2⟩
      · by_cases hk : k = vd.id
        · subst hk
          rw [h1, mapGet_mapSet_self]
          exact Or.inr ⟨hnone, rfl⟩
        · rw [h1, mapGet_mapSet_ne st vd.id k _ hk]
          exact Or.inl rfl
      · by_cases hk : k = vd.id
        · subst hk
          rw [mapGet_mapSet_self] at h1
          exact absurd h1 (by simp)
        · rw [mapGet_mapSet_ne st vd.id k _ hk] at h1
          exact Or.inr ⟨h1, h2⟩

theorem addDefaultStates_isSome_mono (st : StateMap) (l : List ViewDescriptor) (k : String)
    (h : (mapGet st k).isSome) : (mapGet (addDefaultStates st l) k).isSome := by
  rcases mapGet_addDefaultStates st l k with h1 | ⟨h1, h2⟩
  · rw [h1]; exact h
  · rw [h2]; rfl

theorem mapGet_addDefaultStates_isSome (vd : ViewDescriptor) :
    ∀ (l : List ViewDescriptor) (st : StateMap), vd ∈ l →
      (mapGet (addDefaultStates st l) vd.id).isSome := by
  intro l
  induction l with
  | nil => intro st h; cases h
  | cons x l ih =>
    intro st h
    rw [addDefaultStates_cons]
    rcases List.mem_cons.mp h with h1 | h1
    · subst h1
      by_cases hx : (mapGet st vd.id).isSome
      · rw [if_pos hx]
        exact addDefaultStates_isSome_mono st l vd.id hx
      · rw [if_neg hx]
        exact addDefaultStates_isSome_mono _ l vd.id (by rw [mapGet_mapSet_self]; rfl)
    · by_cases hx : (mapGet st x.id).isSome
      · rw [if_pos hx]
        exact ih st h1
      · rw [if_neg hx]
        exact ih _ h1

theorem addDefaultStates_of_present (st : StateMap) (l : List ViewDescriptor)
    (h : ∀ vd ∈ l, (mapGet st vd.id).isSome) : addDefaultStates st l = st := by
  induction l with
  | nil => rfl
  | cons x l ih =>
    rw [addDefaultStates_cons, if_pos (h x (List.mem_cons_self x l))]
    exact ih (fun vd hv => h vd (List.mem_cons_of_mem x hv))

theorem effectiveOrder_addDefaultStates (st : StateMap) (l : List ViewDescriptor)
    (d : ViewDescriptor) :
    effectiveOrder (addDefaultStates st l) d = effectiveOrder st d := by
  unfold effectiveOrder
  rcases mapGet_addDefaultStates st l d.id with h | ⟨h1, h2⟩
  · rw [h]
  · rw [h1, h2]
    rfl

theorem compareViewDescriptors_addDefaultStates (st : StateMap) (l : List ViewDescriptor) :
    compareViewDescriptors (addDefaultStates st l) = compareViewDescriptors st := by
  funext a b
  simp only [compareViewDescriptors, effectiveOrder_addDefaultStates]

theorem reconcile_of_sorted_present (m1 : ModelState) (incoming : List ViewDescriptor)
    (hsorted : insertionSortCmp (compareViewDescriptors m1.viewStates) incoming
      = m1.viewDescriptors)
    (hpresent : ∀ vd ∈ m1.viewDescriptors, (mapGet m1.viewStates vd.id).isSome) :
    onDidChangeViewDescriptorsOp m1 incoming = (m1, []) := by
  simp only [onDidChangeViewDescriptorsOp]
  rw [hsorted]
  rw [addDefaultStates_of_present _ _ hpresent]
  have hdiag : sortedDiffSplices (compareViewDescriptors m1.viewStates)
      m1.viewDescriptors m1.viewDescriptors = [] := by
    unfold sortedDiffSplices
    rw [sortedDiffWalk_self _ (compareViewDescriptors_self m1.viewStates) m1.viewDescriptors 0 []]
    rfl
  rw [hdiag]
  rfl

/-- C4: the reconcile pass is idempotent — running
`onDidChangeViewDescriptors` a second time with the same active
descriptor set emits no add/remove events and leaves the stored ordered
descriptor list (indeed the whole model state) unchanged. -/
theorem c4_reconcile_idempotent (m : ModelState) (incoming : List ViewDescriptor) :
    onDidChangeViewDescriptorsOp (onDidChangeViewDescriptorsOp m incoming).1 incoming
      = ((onDidChangeViewDescriptorsOp m incoming).1, []) := by
  have h1 : (onDidChangeViewDescriptorsOp m incoming).1 =
      { viewDescriptors := insertionSortCmp (compareViewDescriptors m.viewStates) incoming,
        viewStates := addDefaultStates m.viewStates
          (insertionSortCmp (compareViewDescriptors m.viewStates) incoming) } := rfl
  rw [h1]
  apply reconcile_of_sorted_present
  · show insertionSortCmp (compareViewDescriptors (addDefaultStates m.viewStates
      (insertionSortCmp (compareViewDescriptors m.viewStates) incoming))) incoming
      = insertionSortCmp (compareViewDescriptors m.viewStates) incoming
    rw [compareViewDescriptors_addDefaultStates]
  · intro vd hv
    exact mapGet_addDefaultStates_isSome vd _ m.viewStates hv

theorem findAux_id (st : StateMap) (id : String) :
    ∀ (l : List ViewDescriptor) (i vi : Nat) (r : FindResult),
      findAux st id l i vi = some r → r.viewDescriptor.id = id := by
  intro l
  induction l with
  | nil =>
    intro i vi r h
    simp [findAux] at h
  | cons vd rest ih =>
    intro i vi r h
    simp only [findAux] at h
    by_cases hv : vd.id = id
    · rw [if_pos hv] at h
      have hr := Option.some.inj h
      rw [← hr]
      exact hv
    · rw [if_neg hv] at h
      exact ih _ _ _ h

theorem findAux_mapSet_self (st : StateMap) (id : String) (s' : ViewState) :
    ∀ (l : List ViewDescriptor) (i vi : Nat) (r : FindResult),
      findAux st id l i vi = some r →
      findAux (mapSet st id s') id l i vi
        = some ⟨r.index, r.visibleIndex, r.viewDescriptor, s'⟩ := by
  intro l
  induction l with
  | nil =>
    intro i vi r h
    simp [findAux] at h
  | cons vd rest ih =>
    intro i vi r h
    simp only [findAux] at h ⊢
    by_cases hv : vd.id = id
    · rw [if_pos hv] at h ⊢
      have hr := Option.some.inj h
      subst hr
      rw [hv, mapGet_mapSet_self]
      rfl
    · rw [if_neg hv] at h ⊢
      rw [mapGet_mapSet_ne st id vd.id s' hv]
      exact ih _ _ _ h

/-- The model state after `setVisible` flips the state of the found
descriptor (views.ts 246). -/
def setVisibleFlip (m : ModelState) (r : FindResult) (v : Bool) : ModelState :=
  let s' : ViewState := { r.state with visible := v }
  { m with viewStates := mapSet m.viewStates r.viewDescriptor.id s' }

/-- C3: for an id present in the model, `setVisible` throws exactly when
`canToggleVisibility` is false, is a silent no-op when the state already
has the target value, and otherwise flips the state and emits exactly
one event — an add carrying the size and collapsed of the state when turning
visible, a remove carrying the visible-index when turning hidden; a
repeated call with the same value is a no-op, so two same-valued calls
emit at most one event in total. -/
theorem c3_setVisible_spec (m : ModelState) (id : String) (v : Bool) (r : FindResult)
    (hf : findOp m id = some r) :
    (r.viewDescriptor.canToggleVisibility = false →
        setVisible m id v
          = .error ("Can" ++ "\x27" ++ "t toggle this view" ++ "\x27" ++ "s visibility"))
    ∧ (r.viewDescriptor.canToggleVisibility = true → r.state.visible = v →
        setVisible m id v = .ok (m, []))
    ∧ (r.viewDescriptor.canToggleVisibility = true → r.state.visible ≠ v →
        setVisible m id v = .ok (setVisibleFlip m r v,
          [if v then ViewEvent.add r.visibleIndex r.viewDescriptor r.state.size r.state.collapsed
           else ViewEvent.remove r.visibleIndex r.viewDescriptor]))
    ∧ (∀ m1 evs, setVisible m id v = .ok (m1, evs) → setVisible m1 id v = .ok (m1, [])) := by
  have hid : r.viewDescriptor.id = id := findAux_id m.viewStates id m.viewDescriptors 0 0 r hf
  refine ⟨?_, ?_, ?_, ?_⟩
  · intro hc
    simp [setVisible, hf, hc]
  · intro hc hs
    simp [setVisible, hf, hc, hs]
  · intro hc hs
    cases v with
    | false => simp [setVisible, hf, hc, hs, setVisibleFlip]
    | true => simp [setVisible, hf, hc, hs, setVisibleFlip]
  · intro m1 evs hok
    by_cases hc : r.viewDescriptor.canToggleVisibility
    · by_cases hs : r.state.visible = v
      · have : setVisible m id v = .ok (m, []) := by simp [setVisible, hf, hc, hs]
        rw [this] at hok
        have hm : m1 = m := by
          injection hok with h1
          exact (congrArg Prod.fst h1).symm
        subst hm
        simp [setVisible, hf, hc, hs]
      · have hstep : setVisible m id v = .ok (setVisibleFlip m r v,
            [if v then ViewEvent.add r.visibleIndex r.viewDescriptor r.state.size r.state.collapsed
             else ViewEvent.remove r.visibleIndex r.viewDescriptor]) := by
          cases v with
          | false => simp [setVisible, hf, hc, hs, setVisibleFlip]
          | true => simp [setVisible, hf, hc, hs, setVisibleFlip]
        rw [hstep] at hok
        have hm : m1 = setVisibleFlip m r v := by
          injection hok with h1
          exact (congrArg Prod.fst h1).symm
        subst hm
        have hf1 : findOp (setVisibleFlip m r v) id
            = some ⟨r.index, r.visibleIndex, r.viewDescriptor, { r.state with visible := v }⟩ := by
          show findAux (mapSet m.viewStates r.viewDescriptor.id { r.state with visible := v })
            id m.viewDescriptors 0 0 = _
          rw [hid]
          exact findAux_mapSet_self m.viewStates id _ m.viewDescriptors 0 0 r hf
        simp [setVisible, hf1, hc]
    · have : setVisible m id v
          = .error ("Can" ++ "\x27" ++ "t toggle this view" ++ "\x27" ++ "s visibility") := by
        simp [setVisible, hf, hc]
      rw [this] at hok
      cases hok

/-- Witness for C3: on a one-view model with a toggleable visible view,
hiding it flips the state and emits exactly the remove event at visible
index 0. -/
theorem c3_setVisible_spec_witness :
    setVisible ⟨[⟨"a", true, some 1, none⟩], [("a", defaultViewState)]⟩ "a" false
      = .ok (⟨[⟨"a", true, some 1, none⟩], [("a", ⟨false, false, none, none⟩)]⟩,
          [ViewEvent.remove 0 ⟨"a", true, some 1, none⟩]) := by
  have h := (c3_setVisible_spec ⟨[⟨"a", true, some 1, none⟩], [("a", defaultViewState)]⟩ "a" false
      ⟨0, 0, ⟨"a", true, some 1, none⟩, defaultViewState⟩ (by decide)).2.2.1 (by decide) (by decide)
  exact h

theorem foldl_counterDelete (keys : List String) (c : Counter) (k : String) :
    (keys.foldl counterDelete c) k = c k - keys.count k := by
  induction keys generalizing c with
  | nil => simp
  | cons x keys ih =>
    simp only [List.foldl_cons]
    rw [ih]
    by_cases hx : x = k
    · subst hx
      have e1 : counterDelete c x x = c x - 1 := by simp [counterDelete]
      have e2 : (x :: keys).count x = keys.count x + 1 := by simp [List.count_cons]
      rw [e1, e2]
      omega
    · have e1 : counterDelete c x k = c k := by
        simp only [counterDelete]
        rw [if_neg (fun h => hx h.symm)]
      have e2 : (x :: keys).count k = keys.count k := by simp [List.count_cons, hx]
      rw [e1, e2]

theorem onViewsDeregistered_inv (ck : Counter) (items : List IViewItem) :
    ∀ (vds : List ViewDescriptor) (s : DeregState),
      (s.fired = s.removed.any (fun i => i.active)) →
      (∀ k, s.contextKeys k = ck k - s.deletedKeys.count k) →
      (s.items.length + s.removed.length = items.length) →
      (∀ i ∈ s.items, i ∈ items) →
      (∀ i ∈ s.removed, i ∈ items) →
      ((vds.foldl onViewsDeregisteredStep s).fired
          = (vds.foldl onViewsDeregisteredStep s).removed.any (fun i => i.active))
      ∧ (∀ k, (vds.foldl onViewsDeregisteredStep s).contextKeys k
          = ck k - (vds.foldl onViewsDeregisteredStep s).deletedKeys.count k)
      ∧ ((vds.foldl onViewsDeregisteredStep s).items.length
          + (vds.foldl onViewsDeregisteredStep s).removed.length = items.length)
      ∧ (∀ i ∈ (vds.foldl onViewsDeregisteredStep s).removed, i ∈ items) := by
  intro vds
  induction vds with
  | nil =>
    intro s h1 h2 h3 h4 h5
    exact ⟨h1, h2, h3, h5⟩
  | cons vd vds ih =>
    intro s h1 h2 h3 h4 h5
    simp only [List.foldl_cons]
    cases hidx : s.items.findIdx? (fun i => i.viewDescriptor.id = vd.id) with
    | none =>
      have hstep : onViewsDeregisteredStep s vd = s := by
        simp [onViewsDeregisteredStep, hidx]
      rw [hstep]
      exact ih s h1 h2 h3 h4 h5
    | some index =>
      cases hget : s.items[index]? with
      | none =>
        have hstep : onViewsDeregisteredStep s vd = s := by
          simp [onViewsDeregisteredStep, hidx, hget]
        rw [hstep]
        exact ih s h1 h2 h3 h4 h5
      | some item =>
        have hitem : item ∈ s.items := List.getElem?_mem hget
        have hlt : index < s.items.length := by
          by_contra hco
          rw [List.getElem?_eq_none (le_of_not_lt hco)] at hget
          cases hget
        have hstep : onViewsDeregisteredStep s vd =
            { contextKeys := (vd.whenKeys.getD []).foldl counterDelete s.contextKeys
              items := s.items.eraseIdx index
              fired := s.fired || item.active
              removed := s.removed ++ [item]
              deletedKeys := s.deletedKeys ++ vd.whenKeys.getD [] } := by
          simp [onViewsDeregisteredStep, hidx, hget]
        rw [hstep]
        apply ih
        · simp only [List.any_append, List.any_cons, List.any_nil, Bool.or_false]
          rw [h1]
        · intro k
          simp only [foldl_counterDelete, List.count_append]
          rw [h2 k]
          omega
        · simp only [List.length_append, List.length_cons, List.length_nil]
          rw [List.length_eraseIdx_of_lt hlt]
          omega
        · intro i hi
          exact h4 i (List.mem_of_mem_eraseIdx hi)
        · intro i hi
          rcases List.mem_append.mp hi with hi | hi
          · exact h5 i hi
          · rw [List.mem_singleton.mp hi]
            exact h4 item hitem

/-- C6: for every deregistration batch, the pass removes the first item
matching each deregistered id, decrements the counter of every context
key referenced by the predicate of a matched descriptor (by the number of
delete calls, saturating at zero), and fires its single coalesced
changed signal exactly when some removed item was active — in
particular, removing only inactive items never fires. -/
theorem c6_deregister_spec (ck : Counter) (items : List IViewItem) (vds : List ViewDescriptor) :
    ((onViewsDeregistered ck items vds).fired
        = (onViewsDeregistered ck items vds).removed.any (fun i => i.active))
    ∧ (∀ k, (onViewsDeregistered ck items vds).contextKeys k
        = ck k - (onViewsDeregistered ck items vds).deletedKeys.count k)
    ∧ ((onViewsDeregistered ck items vds).items.length
        + (onViewsDeregistered ck items vds).removed.length = items.length)
    ∧ (∀ i ∈ (onViewsDeregistered ck items vds).removed, i ∈ items) :=
  onViewsDeregistered_inv ck items vds ⟨ck, items, false, [], []⟩ rfl
    (fun k => by simp) rfl (fun i hi => hi) (fun i hi => by cases hi)

/-- C7: converting a comment thread with at least one comment makes the
first comment the node itself and every later comment a leaf child in
its `replies` (a flat list, never peers and never deeper); in
particular one thread with two comments for one resource yields a
single `ResourceWithCommentThreads` holding one node whose replies list
is exactly the second comment. -/
theorem c7_thread_to_comment_node (resource : String) (t : ReviewThread)
    (c : ReviewComment) (cs : List ReviewComment) (h : t.comments = c :: cs) :
    (createCommentNode resource t
      = some (CommentNode.mk t.threadId resource c t.range
          (cs.map fun x => CommentNode.mk t.threadId resource x t.range [])))
    ∧ ((mkResourceWithCommentThreads "file:///a.ts"
          [⟨"t1", "file:///a.ts", ⟨1, 1, 1, 1⟩, [⟨"first"⟩, ⟨"second"⟩]⟩]).commentThreads
      = [CommentNode.mk "t1" "file:///a.ts" ⟨"first"⟩ ⟨1, 1, 1, 1⟩
          [CommentNode.mk "t1" "file:///a.ts" ⟨"second"⟩ ⟨1, 1, 1, 1⟩ []]]) := by
  constructor
  · simp only [createCommentNode, h, List.map_cons]
    cases cs with
    | nil => rfl
    | cons c2 cs' =>
      rw [if_pos (by simp)]
      rfl
  · rfl

/-- Witness for C7: the conversion applied to a concrete two-comment
thread. -/
theorem c7_thread_to_comment_node_witness :
    createCommentNode "file:///a.ts" ⟨"t1", "file:///a.ts", ⟨1, 1, 1, 1⟩, [⟨"first"⟩, ⟨"second"⟩]⟩
      = some (CommentNode.mk "t1" "file:///a.ts" ⟨"first"⟩ ⟨1, 1, 1, 1⟩
          [CommentNode.mk "t1" "file:///a.ts" ⟨"second"⟩ ⟨1, 1, 1, 1⟩ []]) :=
  (c7_thread_to_comment_node "file:///a.ts"
    ⟨"t1", "file:///a.ts", ⟨1, 1, 1, 1⟩, [⟨"first"⟩, ⟨"second"⟩]⟩
    ⟨"first"⟩ [⟨"second"⟩] rfl).1

/-- C8: the added phase of `updateCommentThreads` regroups the added
threads by resource and appends one fresh resource entry per group to
the list of the model — appending even when an entry with the same resource
id already exists (no merge): adding a second thread for an
already-present resource leaves two entries with that id. -/
theorem c8_added_appends_duplicate_entries (m : CommentsModel) (added : List ReviewThread) :
    ((updateCommentThreads m ⟨[], [], added⟩).resourceCommentThreads
        = m.resourceCommentThreads ++ addedResourceEntries added)
    ∧ ((updateCommentThreads
          ⟨[mkResourceWithCommentThreads "file:///a.ts"
              [⟨"t1", "file:///a.ts", ⟨1, 1, 1, 1⟩, [⟨"c1"⟩]⟩]]⟩
          ⟨[], [], [⟨"t2", "file:///a.ts", ⟨1, 1, 1, 1⟩, [⟨"c2"⟩]⟩]⟩).resourceCommentThreads.countP
        (fun rd => rd.id = "file:///a.ts") = 2) := by
  exact ⟨rfl, rfl⟩

theorem storageGet_storageStore (s : ViewStorage) (key : String) (scope : ViewStorageScope)
    (v dflt : List SerializedViewState) :
    storageGet (storageStore s key v scope) key scope dflt = v := by
  simp [storageGet, storageStore]

theorem foldl_mapSet_append (entries : List SerializedViewState) :
    ∀ acc : StateMap, (∀ e ∈ entries, mapHas acc e.id = false) →
      (entries.map (fun e => e.id)).Nodup →
      entries.foldl (fun m e => mapSet m e.id e.state) acc
        = acc ++ entries.map (fun e => (e.id, e.state)) := by
  induction entries with
  | nil => intro acc _ _; simp
  | cons e es ih =>
    intro acc habs hnd
    simp only [List.foldl_cons]
    have h0 : acc.any (fun x => x.1 = e.id) = false := habs e (List.mem_cons_self e es)
    have h1 : mapSet acc e.id e.state = acc ++ [(e.id, e.state)] := by
      simp [mapSet, h0]
    rw [h1]
    rw [List.map_cons, List.nodup_cons] at hnd
    rw [ih (acc ++ [(e.id, e.state)]) ?_ hnd.2]
    · simp [List.append_assoc]
    · intro e2 he2
      have hne : e.id ≠ e2.id := by
        intro hc
        exact hnd.1 (hc ▸ List.mem_map_of_mem (fun x => x.id) he2)
      have h2 : mapHas acc e2.id = false := habs e2 (List.mem_cons_of_mem e he2)
      simp only [mapHas, List.any_append, Bool.or_eq_false_iff]
      refine ⟨h2, ?_⟩
      simp [hne]

theorem loadViewStates_save (storage : ViewStorage) (key : String) (w : WorkbenchKind)
    (st : StateMap) (hnd : (st.map Prod.fst).Nodup) :
    loadViewStates (saveViewsStates storage key w st) key w = st := by
  unfold loadViewStates saveViewsStates
  rw [storageGet_storageStore]
  rw [foldl_mapSet_append _ [] (by intro e _; rfl) ?_]
  · simp only [List.nil_append, List.map_map]
    have : ((fun e : SerializedViewState => (e.id, e.state)) ∘
        (fun e : String × ViewState => SerializedViewState.mk e.1 e.2)) = id := by
      funext p
      rfl
    rw [this, List.map_id]
  · have : ((st.map (fun e => SerializedViewState.mk e.1 e.2)).map (fun e => e.id))
        = st.map Prod.fst := by
      rw [List.map_map]
      rfl
    rw [this]
    exact hnd

/-- C9: saving the whole state map and constructing a fresh persistent
model from the same store key (same workbench-open state, hence the
same scope) reproduces the identical per-id state — visible, collapsed,
order and size — for every id of the saved map. -/
theorem c9_persisted_round_trip (storage : ViewStorage) (key : String) (w : WorkbenchKind)
    (st : StateMap) (hnd : (st.map Prod.fst).Nodup) :
    ∀ id s, mapGet st id = some s →
      mapGet (loadViewStates (saveViewsStates storage key w st) key w) id = some s := by
  intro id s h
  rw [loadViewStates_save storage key w st hnd]
  exact h

/-- Witness for C9: a concrete one-entry map round-trips through an
empty store under the workspace scope. -/
theorem c9_persisted_round_trip_witness :
    mapGet (loadViewStates (saveViewsStates (fun _ _ => none) "viewletid.state" .FOLDER
        [("a", ⟨true, false, some 1, some 2⟩)]) "viewletid.state" .FOLDER) "a"
      = some ⟨true, false, some 1, some 2⟩ :=
  c9_persisted_round_trip (fun _ _ => none) "viewletid.state" .FOLDER
    [("a", ⟨true, false, some 1, some 2⟩)] (by decide) "a" ⟨true, false, some 1, some 2⟩ (by decide)

/-- The implicit invariant of claim C10: every stored descriptor id has
an entry in the states map, so `visibleViewDescriptors` and `find`
never dereference a missing state. -/
def WellFormed (m : ModelState) : Prop :=
  ∀ vd ∈ m.viewDescriptors, (mapGet m.viewStates vd.id).isSome

instance (m : ModelState) : Decidable (WellFormed m) := by
  unfold WellFormed
  infer_instance

theorem mem_of_mem_insertIdx {α : Type} (x a : α) :
    ∀ (n : Nat) (l : List α), a ∈ l.insertIdx n x → a = x ∨ a ∈ l := by
  intro n
  induction n with
  | zero =>
    intro l h
    rw [List.insertIdx_zero] at h
    exact List.mem_cons.mp h
  | succ n ih =>
    intro l h
    cases l with
    | nil =>
      rw [List.insertIdx_succ_nil] at h
      cases h
    | cons b l =>
      rw [List.insertIdx_succ_cons] at h
      rcases List.mem_cons.mp h with h | h
      · exact Or.inr (h ▸ List.mem_cons_self b l)
      · rcases ih l h with h | h
        · exact Or.inl h
        · exact Or.inr (List.mem_cons_of_mem b h)

theorem mem_of_mem_arrayMove {α : Type} (l : List α) (fi ti : Nat) (a : α)
    (h : a ∈ arrayMove l fi ti) : a ∈ l := by
  unfold arrayMove at h
  cases hg : l[fi]? with
  | none => rw [hg] at h; exact h
  | some x =>
    rw [hg] at h
    rcases mem_of_mem_insertIdx x a ti (l.eraseIdx fi) h with h | h
    · exact h ▸ List.getElem?_mem hg
    · exact List.mem_of_mem_eraseIdx h

theorem setOrderAt_isSome (st : StateMap) (k : String) (i : Nat) (k' : String)
    (h : (mapGet st k').isSome) : (mapGet (setOrderAt st k i) k').isSome := by
  unfold setOrderAt
  cases hg : mapGet st k with
  | none => exact h
  | some s => exact mapGet_isSome_mapSet st k k' _ h

theorem renumberStates_isSome (k : String) :
    ∀ (l : List ViewDescriptor) (st : StateMap) (i : Nat),
      (mapGet st k).isSome → (mapGet (renumberStates st l i) k).isSome := by
  intro l
  induction l with
  | nil => intro st i h; exact h
  | cons vd l ih =>
    intro st i h
    exact ih _ _ (setOrderAt_isSome st vd.id i k h)

/-- C10: well-formedness (every stored descriptor id has a state entry)
holds after every reconcile pass unconditionally — the pass assigns a
default state to each incoming descriptor before installing the new
list — and is preserved by `setVisible`, `setCollapsed`, `setSize` and
`move`; states are never deleted. -/
theorem c10_states_invariant :
    (∀ (m : ModelState) (incoming : List ViewDescriptor),
        WellFormed (onDidChangeViewDescriptorsOp m incoming).1)
    ∧ (∀ (m : ModelState) (id : String) (v : Bool) (m1 : ModelState) (evs : List ViewEvent),
        WellFormed m → setVisible m id v = .ok (m1, evs) → WellFormed m1)
    ∧ (∀ (m : ModelState) (id : String) (c : Bool) (m1 : ModelState),
        WellFormed m → setCollapsed m id c = some m1 → WellFormed m1)
    ∧ (∀ (m : ModelState) (id : String) (sz : Int) (m1 : ModelState),
        WellFormed m → setSize m id sz = some m1 → WellFormed m1)
    ∧ (∀ (m : ModelState) (f t : String) (m1 : ModelState) (evs : List ViewEvent),
        WellFormed m → moveOp m f t = some (m1, evs) → WellFormed m1) := by
  refine ⟨?_, ?_, ?_, ?_, ?_⟩
  · intro m incoming vd hv
    exact mapGet_addDefaultStates_isSome vd _ m.viewStates hv
  · intro m id v m1 evs hwf hok
    cases hfind : findOp m id with
    | none => simp [setVisible, hfind] at hok
    | some r =>
      by_cases hc : r.viewDescriptor.canToggleVisibility
      · by_cases hs : r.state.visible = v
        · have : m1 = m := by
            simp [setVisible, hfind, hc, hs] at hok
            exact hok.1.symm
          subst this
          exact hwf
        · have hm1 : m1.viewDescriptors = m.viewDescriptors ∧
              m1.viewStates = mapSet m.viewStates r.viewDescriptor.id
                { r.state with visible := v } := by
            cases v with
            | false =>
              simp [setVisible, hfind, hc, hs] at hok
              rw [← hok.1]
              exact ⟨rfl, rfl⟩
            | true =>
              simp [setVisible, hfind, hc, hs] at hok
              rw [← hok.1]
              exact ⟨rfl, rfl⟩
          intro vd hv
          rw [hm1.2]
          rw [hm1.1] at hv
          exact mapGet_isSome_mapSet _ _ _ _ (hwf vd hv)
      · simp [setVisible, hfind, hc] at hok
  · intro m id c m1 hwf hok
    cases hfind : findOp m id with
    | none => simp [setCollapsed, hfind] at hok
    | some r =>
      simp [setCollapsed, hfind] at hok
      intro vd hv
      rw [← hok]
      exact mapGet_isSome_mapSet _ _ _ _ (hwf vd (by rw [← hok] at hv; exact hv))
  · intro m id sz m1 hwf hok
    cases hfind : findOp m id with
    | none => simp [setSize, hfind] at hok
    | some r =>
      simp [setSize, hfind] at hok
      intro vd hv
      rw [← hok]
      exact mapGet_isSome_mapSet _ _ _ _ (hwf vd (by rw [← hok] at hv; exact hv))
  · intro m f t m1 evs hwf hok
    cases hf : m.viewDescriptors.findIdx? (fun v => v.id = f) with
    | none => simp [moveOp, hf] at hok
    | some fi =>
      cases ht : m.viewDescriptors.findIdx? (fun v => v.id = t) with
      | none => simp [moveOp, hf, ht] at hok
      | some ti =>
        cases hgf : m.viewDescriptors[fi]? with
        | none => simp [moveOp, hf, ht, hgf] at hok
        | some fvd =>
          cases hgt : m.viewDescriptors[ti]? with
          | none => simp [moveOp, hf, ht, hgf, hgt] at hok
          | some tvd =>
            have hm1 : m1 = ⟨arrayMove m.viewDescriptors fi ti,
                renumberStates m.viewStates (arrayMove m.viewDescriptors fi ti) 0⟩ := by
              simp [moveOp, hf, ht, hgf, hgt] at hok
              exact hok.1.symm
            subst hm1
            intro vd hv
            exact renumberStates_isSome vd.id _ m.viewStates 0
              (hwf vd (mem_of_mem_arrayMove m.viewDescriptors fi ti vd hv))

/-- Witness for C10: the invariant survives hiding the single view of a
concrete well-formed model. -/
theorem c10_states_invariant_witness :
    WellFormed ⟨[⟨"a", true, some 1, none⟩], [("a", ⟨false, false, none, none⟩)]⟩ :=
  c10_states_invariant.2.1 ⟨[⟨"a", true, some 1, none⟩], [("a", defaultViewState)]⟩ "a" false
    ⟨[⟨"a", true, some 1, none⟩], [("a", ⟨false, false, none, none⟩)]⟩
    [ViewEvent.remove 0 ⟨"a", true, some 1, none⟩] (by decide) (by rfl)

theorem findIdx?_append_cons {α : Type} (p : α → Bool) (pre : List α) (a : α) (post : List α)
    (hpre : ∀ x ∈ pre, p x = false) (ha : p a = true) :
    (pre ++ a :: post).findIdx? p = some pre.length := by
  induction pre with
  | nil => simp [List.findIdx?_cons, ha]
  | cons x xs ih =>
    have hx : p x = false := hpre x (List.mem_cons_self x xs)
    rw [List.cons_append]
    rw [show ((x :: (xs ++ a :: post)).findIdx? p)
        = if p x then some 0 else ((xs ++ a :: post).findIdx? p).map (fun i => i + 1) by
      simp [List.findIdx?_cons]]
    rw [hx]
    rw [ih (fun y hy => hpre y (List.mem_cons_of_mem x hy))]
    simp

theorem eraseIdx_append_length {α : Type} (p : List α) (a : α) (t : List α) :
    (p ++ a :: t).eraseIdx p.length = p ++ t := by
  induction p with
  | nil => rfl
  | cons x xs ih =>
    show (x :: (xs ++ a :: t)).eraseIdx (xs.length + 1) = x :: (xs ++ t)
    rw [show (x :: (xs ++ a :: t)).eraseIdx (xs.length + 1)
      = x :: (xs ++ a :: t).eraseIdx xs.length from rfl]
    rw [ih]

theorem insertIdx_append_succ {α : Type} (p : List α) (b a : α) (t : List α) :
    (p ++ b :: t).insertIdx (p.length + 1) a = p ++ b :: a :: t := by
  induction p with
  | nil =>
    show (b :: t).insertIdx 1 a = b :: a :: t
    rw [List.insertIdx_succ_cons, List.insertIdx_zero]
  | cons x xs ih =>
    show (x :: (xs ++ b :: t)).insertIdx (xs.length + 1 + 1) a = x :: (xs ++ b :: a :: t)
    rw [List.insertIdx_succ_cons, ih]

theorem moveOp_adjacent (m : ModelState) (p s : List ViewDescriptor) (a b : ViewDescriptor)
    (hm : m.viewDescriptors = p ++ a :: b :: s)
    (hpa : ∀ x ∈ p, x.id ≠ a.id) (hpb : ∀ x ∈ p, x.id ≠ b.id) (hab : a.id ≠ b.id) :
    moveOp m a.id b.id = some (⟨p ++ b :: a :: s,
      renumberStates m.viewStates (p ++ b :: a :: s) 0⟩,
      [ViewEvent.move p.length a (p.length + 1) b]) := by
  have hf : m.viewDescriptors.findIdx? (fun v => v.id = a.id) = some p.length := by
    rw [hm]
    exact findIdx?_append_cons _ p a (b :: s) (fun x hx => by simp [hpa x hx]) (by simp)
  have ht : m.viewDescriptors.findIdx? (fun v => v.id = b.id) = some (p.length + 1) := by
    rw [hm, show p ++ a :: b :: s = (p ++ [a]) ++ b :: s by simp]
    have hpre : ∀ x ∈ p ++ [a], (fun v : ViewDescriptor => decide (v.id = b.id)) x = false := by
      intro x hx
      rcases List.mem_append.mp hx with hx | hx
      · simp [hpb x hx]
      · rw [List.mem_singleton.mp hx]
        simp [hab]
    have := findIdx?_append_cons _ (p ++ [a]) b s hpre (by simp)
    simpa using this
  have hgf : m.viewDescriptors[p.length]? = some a := by
    rw [hm, List.getElem?_append_right (le_refl p.length)]
    simp
  have hgt : m.viewDescriptors[p.length + 1]? = some b := by
    rw [hm, List.getElem?_append_right (by omega)]
    simp [Nat.add_sub_cancel_left]
  have harr : arrayMove m.viewDescriptors p.length (p.length + 1) = p ++ b :: a :: s := by
    unfold arrayMove
    rw [hgf]
    show (m.viewDescriptors.eraseIdx p.length).insertIdx (p.length + 1) a = p ++ b :: a :: s
    rw [hm, eraseIdx_append_length, insertIdx_append_succ]
  simp only [moveOp, hf, ht, hgf, hgt, harr]

theorem renumberStates_not_mem (k : String) :
    ∀ (l : List ViewDescriptor) (st : StateMap) (n : Nat),
      (∀ x ∈ l, x.id ≠ k) → mapGet (renumberStates st l n) k = mapGet st k := by
  intro l
  induction l with
  | nil => intro st n _; rfl
  | cons x l ih =>
    intro st n h
    show mapGet (renumberStates (setOrderAt st x.id n) l (n + 1)) k = mapGet st k
    rw [ih _ _ (fun y hy => h y (List.mem_cons_of_mem x hy))]
    unfold setOrderAt
    cases hgx : mapGet st x.id with
    | none => rfl
    | some s0 =>
      exact mapGet_mapSet_ne _ _ _ _ (fun hc => (h x (List.mem_cons_self x l)) hc.symm)

theorem renumberStates_get (vd : ViewDescriptor) :
    ∀ (l : List ViewDescriptor) (st : StateMap) (n i : Nat) (s : ViewState),
      (l.map (fun v => v.id)).Nodup → l[i]? = some vd → mapGet st vd.id = some s →
      mapGet (renumberStates st l n) vd.id = some { s with order := some ((n + i : Nat) : Int) } := by
  intro l
  induction l with
  | nil =>
    intro st n i s _ hg _
    simp at hg
  | cons x l ih =>
    intro st n i s hnd hg hs
    rw [List.map_cons, List.nodup_cons] at hnd
    cases i with
    | zero =>
      have hx : x = vd := by simpa using hg
      subst hx
      show mapGet (renumberStates (setOrderAt st x.id n) l (n + 1)) x.id = _
      rw [renumberStates_not_mem x.id l _ (n + 1) ?_]
      · unfold setOrderAt
        rw [hs]
        simp only []
        rw [mapGet_mapSet_self]
        norm_num
      · intro y hy hc
        exact hnd.1 (hc ▸ List.mem_map_of_mem (fun v => v.id) hy)
    | succ i =>
      have hg' : l[i]? = some vd := by simpa using hg
      have hvd_mem : vd ∈ l := List.getElem?_mem hg'
      have hne : vd.id ≠ x.id := by
        intro hc
        exact hnd.1 (hc ▸ List.mem_map_of_mem (fun v => v.id) hvd_mem)
      have hs' : mapGet (setOrderAt st x.id n) vd.id = some s := by
        unfold setOrderAt
        cases hgx : mapGet st x.id with
        | none => exact hs
        | some s0 =>
          rw [mapGet_mapSet_ne _ _ _ _ hne]
          exact hs
      have hrec := ih (setOrderAt st x.id n) (n + 1) i s hnd.2 hg' hs'
      have harith : (n + 1) + i = n + (i + 1) := by omega
      rw [harith] at hrec
      exact hrec

/-- Counterexample for C5 as stated: for a pair two positions apart
(`a` at raw index 0, `b` at raw index 2 of `[a, c, b]`),
`move(a, b)` followed by `move(b, a)` yields raw order `[c, a, b]`,
not the original `[a, c, b]` — the splice-out/insert semantics of
`arrays.move` does not round-trip at distance two. -/
theorem c5_move_roundtrip_two_apart_fails :
    ((((moveOp ⟨[⟨"a", false, some 1, none⟩, ⟨"c", false, some 2, none⟩,
            ⟨"b", false, some 3, none⟩],
          [("a", defaultViewState), ("c", defaultViewState), ("b", defaultViewState)]⟩
        "a" "b").bind (fun r => moveOp r.1 "b" "a")).map
        (fun r => r.1.viewDescriptors.map (fun v => v.id)) = some ["c", "a", "b"])
    ∧ (some ["c", "a", "b"] ≠ some ["a", "c", "b"])) := by
  exact ⟨by decide, by decide⟩

/-- C5 (amended): `move(fromId, toId)` splices the descriptor out of its
raw position and re-inserts it at the raw index of the target, performs a
full renumber (the `order` of every state becomes its new raw index), and
emits exactly one move event with the pre/post move raw indices and
descriptors; the round trip `move(A,B); move(B,A)` restores the original
raw order for an ADJACENT pair (B immediately after A) — for a pair two
positions apart it does not (see the counterexample). -/
theorem c5_move_spec :
    (∀ (m : ModelState) (f t : String) (fi ti : Nat) (fvd tvd : ViewDescriptor),
        m.viewDescriptors.findIdx? (fun v => v.id = f) = some fi →
        m.viewDescriptors.findIdx? (fun v => v.id = t) = some ti →
        m.viewDescriptors[fi]? = some fvd → m.viewDescriptors[ti]? = some tvd →
        moveOp m f t = some (⟨arrayMove m.viewDescriptors fi ti,
            renumberStates m.viewStates (arrayMove m.viewDescriptors fi ti) 0⟩,
          [ViewEvent.move fi fvd ti tvd]))
    ∧ (∀ (st : StateMap) (l : List ViewDescriptor) (i : Nat) (vd : ViewDescriptor) (s : ViewState),
        (l.map (fun v => v.id)).Nodup → l[i]? = some vd → mapGet st vd.id = some s →
        mapGet (renumberStates st l 0) vd.id = some { s with order := some ((i : Nat) : Int) })
    ∧ (∀ (m : ModelState) (p s : List ViewDescriptor) (a b : ViewDescriptor)
          (m1 : ModelState) (evs1 : List ViewEvent),
        m.viewDescriptors = p ++ a :: b :: s →
        (∀ x ∈ p, x.id ≠ a.id) → (∀ x ∈ p, x.id ≠ b.id) → a.id ≠ b.id →
        moveOp m a.id b.id = some (m1, evs1) →
        moveOp m1 b.id a.id = some (⟨m.viewDescriptors,
            renumberStates m1.viewStates m.viewDescriptors 0⟩,
          [ViewEvent.move p.length b (p.length + 1) a])) := by
  refine ⟨?_, ?_, ?_⟩
  · intro m f t fi ti fvd tvd h1 h2 h3 h4
    simp only [moveOp, h1, h2, h3, h4]
  · intro st l i vd s hnd hg hs
    have := renumberStates_get vd l st 0 i s hnd hg hs
    simpa using this
  · intro m p s a b m1 evs1 hm hpa hpb hab hmv
    rw [moveOp_adjacent m p s a b hm hpa hpb hab] at hmv
    have hm1 : m1 = ⟨p ++ b :: a :: s,
        renumberStates m.viewStates (p ++ b :: a :: s) 0⟩ := by
      have := Option.some.inj hmv
      exact (congrArg Prod.fst this).symm
    subst hm1
    have hback := moveOp_adjacent ⟨p ++ b :: a :: s,
        renumberStates m.viewStates (p ++ b :: a :: s) 0⟩ p s b a rfl hpb hpa (Ne.symm hab)
    rw [hback]
    rw [hm]

/-- Witness for C5: moving the first of two adjacent descriptors after
the second splices the list, renumbers both orders, and emits one move
event with raw indices 0 and 1. -/
theorem c5_move_spec_witness :
    moveOp ⟨[⟨"a", false, some 1, none⟩, ⟨"b", false, some 2, none⟩],
        [("a", defaultViewState), ("b", defaultViewState)]⟩ "a" "b"
      = some (⟨[⟨"b", false, some 2, none⟩, ⟨"a", false, some 1, none⟩],
          [("a", ⟨true, false, some 1, none⟩), ("b", ⟨true, false, some 0, none⟩)]⟩,
        [ViewEvent.move 0 ⟨"a", false, some 1, none⟩ 1 ⟨"b", false, some 2, none⟩]) :=
  c5_move_spec.1 ⟨[⟨"a", false, some 1, none⟩, ⟨"b", false, some 2, none⟩],
      [("a", defaultViewState), ("b", defaultViewState)]⟩ "a" "b" 0 1
    ⟨"a", false, some 1, none⟩ ⟨"b", false, some 2, none⟩
    (by decide) (by decide) (by decide) (by decide)

/-- C1 (failing input for the claim): reach, through the public
operations, a model whose stored raw list is `[a]` with `a` hidden
(empty visible projection), then let the registry deliver `[a, b]`
(`b` sorts after `a`). The trailing insert splice of the diff starts past the
end of the stored list, so `startViewDescriptor` is undefined and the
pass falls back to `startIndex = this.viewDescriptors.length` — the RAW
stored length 1, not the visible count 0. The emitted `add b` therefore
carries index 1, which is not a valid insertion point into the empty
visible-only projection (its only valid index is 0), contradicting the
claim that replaying the emitted events at their indices reproduces the
final visible order. -/
theorem c1_reconcile_emits_raw_length_index :
    (setVisible (onDidChangeViewDescriptorsOp ⟨[], []⟩ [⟨"a", true, some 1, none⟩]).1 "a" false
      = .ok (⟨[⟨"a", true, some 1, none⟩], [("a", ⟨false, false, none, none⟩)]⟩,
          [ViewEvent.remove 0 ⟨"a", true, some 1, none⟩]))
    ∧ (visibleViewDescriptors
        ⟨[⟨"a", true, some 1, none⟩], [("a", ⟨false, false, none, none⟩)]⟩ = [])
    ∧ ((onDidChangeViewDescriptorsOp
          ⟨[⟨"a", true, some 1, none⟩], [("a", ⟨false, false, none, none⟩)]⟩
          [⟨"a", true, some 1, none⟩, ⟨"b", true, some 2, none⟩]).2
        = [ViewEvent.add 1 ⟨"b", true, some 2, none⟩ none false])
    ∧ ((visibleViewDescriptors
          ⟨[⟨"a", true, some 1, none⟩], [("a", ⟨false, false, none, none⟩)]⟩).length < 1) := by
  exact ⟨by rfl, by decide, by decide, by decide⟩
